import Mathlib

/-!
Verification development for the MAL-toolbox attack-graph engine.

The Python sources under `maltoolbox/` are shallowly embedded: pure
functions become Lean functions, mutation becomes explicit state passing,
Python exceptions become explicit error values, and the dynamic typing of
dict values is made explicit where the control flow depends on it (for
example, dictionary keys that may be either integers or strings, and the
list-versus-generator distinction for step-expression results).
Collaborator objects that the specification declares external (the
instance model and the language graph) are abstract query interfaces.
-/

namespace MalToolbox

/-! ## Step-expression evaluator (`attackgraph.py`, `_process_step_expression`)

An instance-model asset.  The evaluator compares assets by their `id`
attribute, fetches associated assets through the model interface keyed by
the asset, and reads the declared `type` for variable resolution and
subtype filtering. -/

structure Asset where
  id : Nat
  name : String
  type : String
deriving DecidableEq, Repr

/-- Python collection of assets flowing through `_process_step_expression`:
either a plain list or a generator (the `subType` arm builds a generator
expression and returns it without materialising it).  A generator is
modelled by the list of elements it would yield. -/
inductive AssetColl where
  | plain (xs : List Asset)
  | gen (xs : List Asset)
deriving DecidableEq, Repr

/-- The elements obtained by iterating over the collection. -/
def AssetColl.elems : AssetColl → List Asset
  | .plain xs => xs
  | .gen xs => xs

/-- Python truthiness of `coll != []` as used on the result of
`_process_step_expression`: a list compares unequal to `[]` exactly when it
is non-empty, while a generator object is never equal to a list, so the
comparison is `True` even for an exhausted/empty generator. -/
def AssetColl.pyNeqEmptyList : AssetColl → Bool
  | .plain xs => !xs.isEmpty
  | .gen _ => true

/-- Step-expression tree (the `step_expression` dicts of the language
specification, tagged by their `type` entry).  The `transitive` arm stores
the inner field name, mirroring the source's direct access to
`step_expression['stepExpression']['name']`.  `unknown` stands for any
unrecognised `type` tag. -/
inductive StepExpr where
  | attackStep (name : String)
  | union (lhs rhs : StepExpr)
  | intersection (lhs rhs : StepExpr)
  | difference (lhs rhs : StepExpr)
  | var (name : String)
  | field (name : String)
  | transitive (fieldName : String)
  | subType (inner : StepExpr) (sub : String)
  | collect (lhs rhs : StepExpr)
  | unknown
deriving DecidableEq, Repr

/-- Query interface of the instance model (`maltoolbox.model.Model`), an
external collaborator: the asset list and
`get_associated_assets_by_field_name`. -/
structure ModelI where
  assets : List Asset
  assoc : Asset → String → List Asset

/-- Query interface of the language graph: variable lookup
(`_get_variable_for_asset_type_by_name`) and the subtype predicate
(`specification.extends_asset`). -/
structure LangI where
  varFor : String → String → StepExpr
  extendsAsset : String → String → Bool

/-- The `union` arm's loop: `new_target_assets` starts as the left-hand
list and, for each right-hand node, the node is appended when `next`
finds some element of the growing list whose id *differs* (the source's
condition is `lnode.id != ag_node.id`). -/
def unionLoop (acc : List Asset) : List Asset → List Asset
  | [] => acc
  | r :: rs =>
    if acc.any (fun l => l.id != r.id) then unionLoop (acc ++ [r]) rs
    else unionLoop acc rs

/-- The `difference` arm's loop: Python iterates `lh_targets` by index
while `new_target_assets` *is* `lh_targets` (aliased), removing the first
occurrence of the current element whenever some right-hand node has a
*different* id (the source's condition is `rnode.id != ag_node.id`).
`cur` is the mutated list and `i` the iterator's index. -/
def diffLoop (rh : List Asset) (cur : List Asset) (i : Nat) : List Asset :=
  if h : i < cur.length then
    let a := cur.get ⟨i, h⟩
    if rh.any (fun r => r.id != a.id) then
      diffLoop rh (cur.erase a) (i + 1)
    else
      diffLoop rh cur (i + 1)
  else cur
termination_by cur.length - i
decreasing_by
  · have ha : cur.get ⟨i, h⟩ ∈ cur := cur.get_mem i h
    have := List.length_erase_of_mem ha
    omega
  · omega

/-- One application of the named association field to every target asset,
as done by the `field` and `transitive` arms: the associated assets of all
targets are concatenated (duplicates preserved). -/
def fieldApply (m : ModelI) (f : String) (targets : List Asset) : List Asset :=
  targets.foldl (fun acc a => acc ++ m.assoc a f) []

/-- Recursive evaluation of a step expression
(`_process_step_expression`).  `fuel` bounds the recursion depth through
`variable` indirection and `transitive` iteration, the only sources of
unbounded recursion in the original (which can fail to terminate on, for
example, cyclic association graphs); `none` means the bound was exhausted.
All other arms recurse structurally.  The result pairs the produced asset
collection with the optional attack-step name, exactly as the source
returns `(target_assets, attack_step_name)`. -/
def evalStep (m : ModelI) (lg : LangI) : Nat → StepExpr → AssetColl →
    Option (AssetColl × Option String)
  | _, .attackStep name, targets => some (targets, some name)
  | fuel, .union l r, targets => do
    let lr ← evalStep m lg fuel l targets
    let rr ← evalStep m lg fuel r targets
    some (.plain (unionLoop lr.1.elems rr.1.elems), none)
  | fuel, .intersection l r, targets => do
    let lr ← evalStep m lg fuel l targets
    let rr ← evalStep m lg fuel r targets
    some (.plain (rr.1.elems.filter (fun a => lr.1.elems.any (fun b => b.id == a.id))), none)
  | fuel, .difference l r, targets => do
    let lr ← evalStep m lg fuel l targets
    let rr ← evalStep m lg fuel r targets
    some (.plain (diffLoop rr.1.elems lr.1.elems 0), none)
  | 0, .var _, _ => none
  | fuel + 1, .var name, targets =>
    match targets.elems with
    | [] => some (.plain [], none)
    | t :: _ => evalStep m lg fuel (lg.varFor t.type name) targets
  | _, .field name, targets =>
    some (.plain (fieldApply m name targets.elems), none)
  | 0, .transitive _, _ => none
  | fuel + 1, .transitive f, targets =>
    let newT := fieldApply m f targets.elems
    if newT.isEmpty then some (.plain [], none)
    else do
      let r ← evalStep m lg fuel (.transitive f) (.plain newT)
      some (.plain (newT ++ r.1.elems), none)
  | fuel, .subType inner sub, targets => do
    let r ← evalStep m lg fuel inner targets
    let newT := (targets.elems.map (fun _ => r.1.elems)).foldl (· ++ ·) []
    some (.gen (newT.filter (fun a => lg.extendsAsset a.type sub)), none)
  | fuel, .collect l r, targets => do
    let lr ← evalStep m lg fuel l targets
    evalStep m lg fuel r lr.1
  | _, .unknown, _ => some (.plain [], none)
termination_by fuel e _ => (fuel, sizeOf e)

/-- The `exist`/`notExist` handling in `AttackGraph._generate_graph`: the
step's first `requires` expression is evaluated against `[asset]` and
`existence_status` is set to the Python truth value of
`target_assets != []`. -/
def existenceStatus (m : ModelI) (lg : LangI) (fuel : Nat)
    (requiresFirst : StepExpr) (asset : Asset) : Option Bool :=
  (evalStep m lg fuel requiresFirst (.plain [asset])).map
    (fun r => r.1.pyNeqEmptyList)

/-- The association relation induced by one field name: `assocRel m f a b`
holds when `b` is among the assets associated to `a` via field `f`. -/
def assocRel (m : ModelI) (f : String) (a b : Asset) : Prop :=
  b ∈ m.assoc a f

/-- A concrete asset, model and language interface used by the concrete
evaluations below: one asset, no associations, trivial language queries. -/
def assetA : Asset := ⟨0, "A", "T"⟩

def modelA : ModelI := ⟨[assetA], fun _ _ => []⟩

def langA : LangI := ⟨fun _ _ => .unknown, fun _ _ => true⟩

end MalToolbox

namespace MalToolbox

/-- C1: the claim states that the `union` variant returns the set union by
asset id and the `difference` variant the left set minus the right set.
The code does neither: with an empty left operand and `{assetA}` as right
operand, `union` returns the empty list (the right-hand asset is dropped
although it belongs to the set union), and with `{assetA}` as both
operands `difference` returns `{assetA}` (the asset is kept although the
set difference is empty).  The middle conjunct records that the right-hand
operand of the union indeed evaluates to `{assetA}`. -/
theorem c1_set_ops_bug :
    evalStep modelA langA 0 (.union (.field "f") (.attackStep "s")) (.plain [assetA])
      = some (.plain [], none)
    ∧ evalStep modelA langA 0 (.attackStep "s") (.plain [assetA])
      = some (.plain [assetA], some "s")
    ∧ evalStep modelA langA 0 (.difference (.attackStep "s") (.attackStep "t")) (.plain [assetA])
      = some (.plain [assetA], none) := by
  refine ⟨?_, ?_, ?_⟩
  · rw [evalStep, evalStep, evalStep]
    show some (AssetColl.plain (unionLoop [] [assetA]), none) = _
    simp [unionLoop]
  · rw [evalStep]
  · rw [evalStep, evalStep, evalStep]
    show some (AssetColl.plain (diffLoop [assetA] [assetA] 0), none) = _
    simp [diffLoop]

/-- C5: the claim states that `existence_status` is `True` exactly when
the first `requires` expression evaluates to a non-empty collection and
`False` when the collection is empty, for every expression shape including
`subType`.  For a `subType` requires-expression the evaluator returns a
generator object, and the code's `target_assets != []` comparison is
`True` for a generator even when it yields nothing: here the resulting
collection is empty, yet the computed status is `True`. -/
theorem c5_existence_bug :
    existenceStatus modelA langA 0 (.subType (.field "g") "S") assetA = some true
    ∧ evalStep modelA langA 0 (.subType (.field "g") "S") (.plain [assetA])
      = some (.gen [], none)
    ∧ (AssetColl.gen []).elems = [] := by
  refine ⟨?_, ?_, rfl⟩
  · rw [existenceStatus, evalStep, evalStep]
    rfl
  · rw [evalStep, evalStep]
    rfl

/-! ### Transitive step expressions (C8) -/

theorem foldl_append_start (g : Asset → List Asset) :
    ∀ (ts : List Asset) (init : List Asset),
      ts.foldl (fun acc a => acc ++ g a) init
        = init ++ ts.foldl (fun acc a => acc ++ g a) []
  | [], init => by simp
  | t :: ts, init => by
    simp only [List.foldl_cons]
    rw [foldl_append_start g ts (init ++ g t), foldl_append_start g ts ([] ++ g t)]
    simp

theorem fieldApply_cons (m : ModelI) (f : String) (t : Asset) (ts : List Asset) :
    fieldApply m f (t :: ts) = m.assoc t f ++ fieldApply m f ts := by
  simp only [fieldApply, List.foldl_cons]
  rw [foldl_append_start (fun a => m.assoc a f) ts ([] ++ m.assoc t f)]
  simp

theorem mem_fieldApply {m : ModelI} {f : String} {x : Asset} :
    ∀ {ts : List Asset}, x ∈ fieldApply m f ts ↔ ∃ a ∈ ts, x ∈ m.assoc a f := by
  intro ts
  induction ts with
  | nil => simp [fieldApply]
  | cons t ts ih =>
    rw [fieldApply_cons]
    simp only [List.mem_append, ih, List.mem_cons]
    constructor
    · rintro (hx | ⟨a, ha, hax⟩)
      · exact ⟨t, Or.inl rfl, hx⟩
      · exact ⟨a, Or.inr ha, hax⟩
    · rintro ⟨a, rfl | ha, hax⟩
      · exact Or.inl hax
      · exact Or.inr ⟨a, ha, hax⟩

/-- A chain of exactly `k` association steps that starts from a member of
`targets` (the witness list `l` holds the successive chain elements). -/
def HasChainLen (m : ModelI) (f : String) (targets : List Asset) (k : Nat) : Prop :=
  ∃ a l, a ∈ targets ∧ List.Chain (assocRel m f) a l ∧ l.length = k

theorem chain_extend {m : ModelI} {f : String} {ts : List Asset} {k : Nat} :
    HasChainLen m f (fieldApply m f ts) k → HasChainLen m f ts (k + 1) := by
  rintro ⟨a, l, ha, hch, hlen⟩
  obtain ⟨b, hb, hrel⟩ := mem_fieldApply.mp ha
  exact ⟨b, a :: l, hb, List.Chain.cons hrel hch, by simp [hlen]⟩

theorem chainLen_zero {m : ModelI} {f : String} {ts : List Asset}
    (h : ¬ HasChainLen m f ts 0) : ts = [] := by
  cases ts with
  | nil => rfl
  | cons t ts => exact absurd ⟨t, [], by simp, List.Chain.nil, rfl⟩ h

theorem chain_mem_transGen {r : Asset → Asset → Prop} :
    ∀ {a l}, List.Chain r a l → ∀ x ∈ l, Relation.TransGen r a x := by
  intro a l
  induction l generalizing a with
  | nil => intro _ x hx; simp at hx
  | cons b t ih =>
    intro hch x hx
    cases hch with
    | cons hab hbt =>
      rcases List.mem_cons.mp hx with rfl | hxt
      · exact Relation.TransGen.single hab
      · exact Relation.TransGen.head hab (ih hbt x hxt)

theorem chain_mem_hasPred {r : Asset → Asset → Prop} :
    ∀ {a l}, List.Chain r a l → ∀ x ∈ l, ∃ y, r y x := by
  intro a l
  induction l generalizing a with
  | nil => intro _ x hx; simp at hx
  | cons b t ih =>
    intro hch x hx
    cases hch with
    | cons hab hbt =>
      rcases List.mem_cons.mp hx with rfl | hxt
      · exact ⟨a, hab⟩
      · exact ih hbt x hxt

theorem transGen_head_cases {r : Asset → Asset → Prop} {a x : Asset}
    (h : Relation.TransGen r a x) :
    r a x ∨ ∃ c, r a c ∧ Relation.TransGen r c x := by
  induction h with
  | single h => exact Or.inl h
  | tail hab hbc ih =>
    rcases ih with h | ⟨c, hc, htc⟩
    · exact Or.inr ⟨_, h, Relation.TransGen.single hbc⟩
    · exact Or.inr ⟨c, hc, htc.tail hbc⟩

theorem chain_dup_transGen {r : Asset → Asset → Prop} :
    ∀ {a l x}, List.Chain r a l → List.Sublist [x, x] l → Relation.TransGen r x x := by
  intro a l
  induction l generalizing a with
  | nil => intro x _ hsub; nomatch hsub
  | cons b t ih =>
    intro x hch hsub
    cases hch with
    | cons hab hbt =>
      cases hsub with
      | cons _ h => exact ih hbt h
      | cons₂ _ h => exact chain_mem_transGen hbt b (List.singleton_sublist.mp h)

theorem no_long_chain {m : ModelI} {f : String}
    (hclosed : ∀ a b, b ∈ m.assoc a f → b ∈ m.assets)
    (hacyc : ∀ x, ¬ Relation.TransGen (assocRel m f) x x)
    (ts : List Asset) : ¬ HasChainLen m f ts (m.assets.length + 1) := by
  rintro ⟨a, l, _, hch, hlen⟩
  have hin : ∀ x ∈ l, x ∈ m.assets := by
    intro x hx
    obtain ⟨y, hy⟩ := chain_mem_hasPred hch x hx
    exact hclosed y x hy
  by_cases hnd : l.Nodup
  · have h1 : l.toFinset.card = l.length := List.toFinset_card_of_nodup hnd
    have h2 : l.toFinset ⊆ m.assets.toFinset := by
      intro x hx
      exact List.mem_toFinset.mpr (hin x (List.mem_toFinset.mp hx))
    have h3 := Finset.card_le_card h2
    have h4 := m.assets.toFinset_card_le
    omega
  · rw [List.nodup_iff_sublist] at hnd
    push_neg at hnd
    obtain ⟨x, hx⟩ := hnd
    exact hacyc x (chain_dup_transGen hch hx)

theorem evalStep_transitive_total (m : ModelI) (lg : LangI) (f : String) :
    ∀ fuel ts, ¬ HasChainLen m f ts fuel →
      ∃ l, evalStep m lg (fuel + 1) (.transitive f) (.plain ts)
          = some (.plain l, none) := by
  intro fuel
  induction fuel with
  | zero =>
    intro ts h
    have hts := chainLen_zero h
    subst hts
    refine ⟨[], ?_⟩
    rw [evalStep]
    simp [fieldApply, AssetColl.elems]
  | succ fuel ih =>
    intro ts h
    rw [evalStep]
    by_cases hempty : (fieldApply m f ts).isEmpty
    · exact ⟨[], by simp [AssetColl.elems, hempty]⟩
    · have hnc : ¬ HasChainLen m f (fieldApply m f ts) fuel :=
        fun hc => h (chain_extend hc)
      obtain ⟨l, hl⟩ := ih (fieldApply m f ts) hnc
      exact ⟨fieldApply m f ts ++ l, by
        simp [AssetColl.elems, hempty, hl]⟩

theorem evalStep_transitive_mem (m : ModelI) (lg : LangI) (f : String) :
    ∀ fuel ts r, evalStep m lg fuel (.transitive f) (.plain ts) = some r →
      ∃ l, r = (.plain l, none)
        ∧ ∀ x, x ∈ l ↔ ∃ a ∈ ts, Relation.TransGen (assocRel m f) a x := by
  intro fuel
  induction fuel with
  | zero =>
    intro ts r hr
    rw [evalStep] at hr
    exact absurd hr (by simp)
  | succ fuel ih =>
    intro ts r hr
    rw [evalStep] at hr
    simp only [AssetColl.elems] at hr
    by_cases hempty : (fieldApply m f ts).isEmpty
    · rw [if_pos hempty] at hr
      obtain rfl := Option.some.inj hr
      refine ⟨[], rfl, ?_⟩
      intro x
      simp only [List.not_mem_nil, false_iff]
      rintro ⟨a, ha, htg⟩
      have hstep : ∃ y, assocRel m f a y := by
        rcases transGen_head_cases htg with hax | ⟨c, hac, _⟩
        · exact ⟨x, hax⟩
        · exact ⟨c, hac⟩
      obtain ⟨y, hy⟩ := hstep
      have hyf : y ∈ fieldApply m f ts := mem_fieldApply.mpr ⟨a, ha, hy⟩
      rw [List.isEmpty_iff] at hempty
      simp [hempty] at hyf
    · rw [if_neg hempty] at hr
      cases heval : evalStep m lg fuel (.transitive f)
          (.plain (fieldApply m f ts)) with
      | none => rw [heval] at hr; simp at hr
      | some r2 =>
        rw [heval] at hr
        obtain ⟨l2, rfl, hmem⟩ := ih _ _ heval
        obtain rfl := Option.some.inj hr
        refine ⟨fieldApply m f ts ++ l2, rfl, ?_⟩
        intro x
        simp only [AssetColl.elems, List.mem_append]
        constructor
        · rintro (hx | hx)
          · obtain ⟨a, ha, hax⟩ := mem_fieldApply.mp hx
            exact ⟨a, ha, Relation.TransGen.single hax⟩
          · obtain ⟨b, hb, hbx⟩ := (hmem x).mp hx
            obtain ⟨a, ha, hab⟩ := mem_fieldApply.mp hb
            exact ⟨a, ha, Relation.TransGen.head hab hbx⟩
        · rintro ⟨a, ha, htg⟩
          rcases transGen_head_cases htg with hax | ⟨c, hac, hcx⟩
          · exact Or.inl (mem_fieldApply.mpr ⟨a, ha, hax⟩)
          · exact Or.inr ((hmem x).mpr
              ⟨c, mem_fieldApply.mpr ⟨a, ha, hac⟩, hcx⟩)

/-- C8: for a model whose association graph restricted to the named field
is acyclic, evaluating a `transitive` step expression terminates (fuel
`|assets| + 2` suffices, the recursion reaching its empty-frontier base
case) and the returned list contains exactly the assets reachable from
some target asset by one or more applications of the field association —
the accumulation of every frontier, i.e. the transitive closure, not just
the final frontier. -/
theorem c8_transitive (m : ModelI) (lg : LangI) (f : String) (targets : List Asset)
    (hclosed : ∀ a b, b ∈ m.assoc a f → b ∈ m.assets)
    (hacyc : ∀ x, ¬ Relation.TransGen (assocRel m f) x x) :
    ∃ l, evalStep m lg (m.assets.length + 2) (.transitive f) (.plain targets)
        = some (.plain l, none)
      ∧ ∀ x, x ∈ l ↔ ∃ a ∈ targets, Relation.TransGen (assocRel m f) a x := by
  obtain ⟨l, hl⟩ := evalStep_transitive_total m lg f (m.assets.length + 1) targets
    (no_long_chain hclosed hacyc targets)
  obtain ⟨l2, heq, hmem⟩ := evalStep_transitive_mem m lg f _ _ _ hl
  have hll : l2 = l := by
    have := heq
    simp only [Prod.mk.injEq, AssetColl.plain.injEq] at this
    exact this.1.symm
  subst hll
  exact ⟨l2, hl, hmem⟩

/-- Witness for C8 at a concrete model: one asset, no associations. -/
theorem c8_transitive_witness :
    (∀ a b, b ∈ modelA.assoc a "f" → b ∈ modelA.assets)
    ∧ (∀ x, ¬ Relation.TransGen (assocRel modelA "f") x x)
    ∧ ∃ l, evalStep modelA langA (modelA.assets.length + 2)
          (.transitive "f") (.plain [assetA])
        = some (.plain l, none)
      ∧ ∀ x, x ∈ l ↔ ∃ a ∈ [assetA], Relation.TransGen (assocRel modelA "f") a x := by
  have h1 : ∀ a b, b ∈ modelA.assoc a "f" → b ∈ modelA.assets := by
    intro a b hb
    simp [modelA] at hb
  have h2 : ∀ x, ¬ Relation.TransGen (assocRel modelA "f") x x := by
    intro x hx
    cases hx with
    | single h => simp [assocRel, modelA] at h
    | tail _ h => simp [assocRel, modelA] at h
  exact ⟨h1, h2, c8_transitive modelA langA "f" [assetA] h1 h2⟩

/-! ## Python errors

Exceptions raised by the embedded code.  `nameError ident` is the
`NameError` raised when a Python expression references the undefined
identifier `ident`; the others mirror `ValueError`, `KeyError`,
`TypeError` and the library's own `AttackGraphStepExpressionError`. -/

inductive PyErr where
  | valueError (msg : String)
  | keyError (what : String)
  | typeError (what : String)
  | nameError (ident : String)
  | stepExpressionError (msg : String)
deriving DecidableEq, Repr

/-! ## Attacker compromise (`attacker.py`) and attacker attachment
(`attackgraph.py`, `attach_attackers`)

Python list objects are mutable and shared by reference, which is
essential here (`attach_attackers` ends with
`attacker.entry_points = attacker.reached_attack_steps`, making both
attributes name one list object).  Lists are therefore held in a heap
(`heap`, indexed by allocation order) and the attacker record stores the
two references.  `compromised_by` of each node is a dictionary from node
id to the list of attacker ids that compromised it; attacker membership
(`is_compromised_by`) is by attacker id. -/

/-- Assoc-list lookup, modelling Python dict access. -/
def dictGet {κ ν : Type} [DecidableEq κ] : List (κ × ν) → κ → Option ν
  | [], _ => none
  | (k1, v1) :: rest, k => if k1 = k then some v1 else dictGet rest k

/-- Assoc-list update, modelling Python dict item assignment. -/
def dictSet {κ ν : Type} [DecidableEq κ] : List (κ × ν) → κ → ν → List (κ × ν)
  | [], k, v => [(k, v)]
  | (k1, v1) :: rest, k, v =>
    if k1 = k then (k, v) :: rest else (k1, v1) :: dictSet rest k v

/-- Assoc-list deletion, modelling Python `del d[k]` (the caller checks
presence first, mirroring the `KeyError` contract). -/
def dictDel {κ ν : Type} [DecidableEq κ] : List (κ × ν) → κ → List (κ × ν)
  | [], _ => []
  | (k1, v1) :: rest, k =>
    if k1 = k then rest else (k1, v1) :: dictDel rest k

/-- An `Attacker` object: identity, name and the heap references of its
`entry_points` and `reached_attack_steps` list objects. -/
structure AttackerH where
  aid : Nat
  name : String
  entryRef : Nat
  reachedRef : Nat
deriving DecidableEq, Repr

/-- State touched by `compromise`/`undo_compromise`: the list heap and the
per-node `compromised_by` lists. -/
structure CompSt where
  heap : List (List Nat)
  compBy : List (Nat × List Nat)
deriving DecidableEq, Repr

def heapGet (st : CompSt) (r : Nat) : List Nat :=
  st.heap.getD r []

def heapSet (st : CompSt) (r : Nat) (xs : List Nat) : CompSt :=
  { st with heap := st.heap.set r xs }

def compByGet (st : CompSt) (nid : Nat) : List Nat :=
  (dictGet st.compBy nid).getD []

/-- Allocation of a fresh Python list object. -/
def allocList (st : CompSt) (xs : List Nat) : Nat × CompSt :=
  (st.heap.length, { st with heap := st.heap ++ [xs] })

/-- `Attacker.compromise` (attacker.py lines 35–51): a no-op when the
attacker already compromised the node (`is_compromised_by`), otherwise the
attacker is appended to `node.compromised_by` and the node to the list
behind `attacker.reached_attack_steps`. -/
def compromise (st : CompSt) (a : AttackerH) (nid : Nat) : CompSt :=
  if a.aid ∈ compByGet st nid then st
  else
    let st1 : CompSt :=
      { st with compBy := dictSet st.compBy nid (compByGet st nid ++ [a.aid]) }
    heapSet st1 a.reachedRef (heapGet st1 a.reachedRef ++ [nid])

/-- `Attacker.undo_compromise` (attacker.py lines 53–70): a no-op when
the attacker has not compromised the node, otherwise the first occurrence
of the attacker / node is removed from the two lists (`list.remove`,
modelled by `List.erase`). -/
def undoCompromise (st : CompSt) (a : AttackerH) (nid : Nat) : CompSt :=
  if a.aid ∈ compByGet st nid then
    let st1 : CompSt :=
      { st with compBy := dictSet st.compBy nid ((compByGet st nid).erase a.aid) }
    heapSet st1 a.reachedRef ((heapGet st1 a.reachedRef).erase nid)
  else st

/-- Inner loop of `attach_attackers` over the attack steps of one entry
point: the node is looked up by full name `asset.name + ':' + attack_step`
and compromised; in the not-found branch the source formats its warning
message with the undefined identifier `attack_step_id`, so Python raises
`NameError` instead of logging and skipping. -/
def compromiseStepList (lookupNode : String → Option Nat) (a : AttackerH)
    (assetName : String) : List String → CompSt → Except PyErr CompSt
  | [], st => .ok st
  | step :: rest, st =>
    match lookupNode (assetName ++ ":" ++ step) with
    | none => .error (.nameError "attack_step_id")
    | some nid => compromiseStepList lookupNode a assetName rest (compromise st a nid)

/-- Loop of `attach_attackers` over one attacker's entry points. -/
def compromiseEntryPoints (lookupNode : String → Option Nat) (a : AttackerH) :
    List (String × List String) → CompSt → Except PyErr CompSt
  | [], st => .ok st
  | (assetName, steps) :: rest, st => do
    let st1 ← compromiseStepList lookupNode a assetName steps st
    compromiseEntryPoints lookupNode a rest st1

/-- One iteration of `AttackGraph.attach_attackers` (attackgraph.py lines
360–380): create the attacker with two fresh empty lists, compromise its
entry points, then assign `attacker.entry_points =
attacker.reached_attack_steps` (the same list object). -/
def attachAttacker (lookupNode : String → Option Nat) (st : CompSt)
    (name : String) (aid : Nat) (entryPoints : List (String × List String)) :
    Except PyErr (AttackerH × CompSt) :=
  let (eRef, st1) := allocList st []
  let (rRef, st2) := allocList st1 []
  let a : AttackerH := ⟨aid, name, eRef, rRef⟩
  match compromiseEntryPoints lookupNode a entryPoints st2 with
  | .error e => .error e
  | .ok st3 => .ok ({ a with entryRef := a.reachedRef }, st3)

/-- `AttackGraph.attach_attackers` over all attacker definitions of the
model (each a name with entry points `(asset name, attack step names)`),
with the attacker id counter threaded through. -/
def attachAttackers (lookupNode : String → Option Nat) :
    List (String × List (String × List String)) → Nat → CompSt →
    Except PyErr (List AttackerH × CompSt)
  | [], _, st => .ok ([], st)
  | (nm, eps) :: rest, nextAid, st => do
    let (a, st1) ← attachAttacker lookupNode st nm nextAid eps
    let (rest2, st2) ← attachAttackers lookupNode rest (nextAid + 1) st1
    .ok (a :: rest2, st2)

theorem dictGet_dictSet_self {κ ν : Type} [DecidableEq κ]
    (l : List (κ × ν)) (k : κ) (v : ν) : dictGet (dictSet l k v) k = some v := by
  induction l with
  | nil => simp [dictGet, dictSet]
  | cons p rest ih =>
    by_cases hk : p.1 = k
    · simp [dictSet, hk, dictGet]
    · simp [dictSet, hk, dictGet, ih]

theorem getD_set_self {α : Type} :
    ∀ (l : List α) (n : Nat) (a d : α), n < l.length → (l.set n a).getD n d = a := by
  intro l
  induction l with
  | nil => intro n a d h; simp at h
  | cons x xs ih =>
    intro n a d h
    cases n with
    | zero => rfl
    | succ n => exact ih n a d (by simpa using h)

theorem compromise_of_mem (st : CompSt) (a : AttackerH) (nid : Nat)
    (h : a.aid ∈ compByGet st nid) : compromise st a nid = st := by
  simp [compromise, h]

theorem mem_compByGet_compromise (st : CompSt) (a : AttackerH) (nid : Nat) :
    a.aid ∈ compByGet (compromise st a nid) nid := by
  by_cases h : a.aid ∈ compByGet st nid
  · simp [compromise, h]
  · simp only [compromise, if_neg h]
    simp [compByGet, heapSet, dictGet_dictSet_self]

/-- C7: for every attacker, node and state, calling `compromise` twice
leaves `compromised_by` and `reached_attack_steps` exactly as after one
call, and `undo_compromise` on a node the attacker has not compromised
changes nothing. -/
theorem c7_idempotence (st : CompSt) (a : AttackerH) (nid : Nat) :
    compromise (compromise st a nid) a nid = compromise st a nid
    ∧ (a.aid ∉ compByGet st nid → undoCompromise st a nid = st) := by
  constructor
  · exact compromise_of_mem _ a nid (mem_compByGet_compromise st a nid)
  · intro h
    simp [undoCompromise, h]

/-- Witness for C7 at a concrete state: attacker 0 has not compromised
node 5, so the redundant `undo_compromise` is a no-op, and the double
`compromise` equals the single one. -/
theorem c7_idempotence_witness :
    ((⟨0, "Eve", 0, 1⟩ : AttackerH).aid ∉ compByGet ⟨[[], []], []⟩ 5)
    ∧ compromise (compromise ⟨[[], []], []⟩ ⟨0, "Eve", 0, 1⟩ 5) ⟨0, "Eve", 0, 1⟩ 5
        = compromise ⟨[[], []], []⟩ ⟨0, "Eve", 0, 1⟩ 5
    ∧ undoCompromise ⟨[[], []], []⟩ ⟨0, "Eve", 0, 1⟩ 5 = ⟨[[], []], []⟩ := by
  have h : (⟨0, "Eve", 0, 1⟩ : AttackerH).aid ∉ compByGet ⟨[[], []], []⟩ 5 := by
    decide
  exact ⟨h, (c7_idempotence ⟨[[], []], []⟩ ⟨0, "Eve", 0, 1⟩ 5).1,
    (c7_idempotence ⟨[[], []], []⟩ ⟨0, "Eve", 0, 1⟩ 5).2 h⟩

theorem attachAttacker_entryRef_eq (lookupNode : String → Option Nat) (st : CompSt)
    (name : String) (aid : Nat) (eps : List (String × List String))
    (a : AttackerH) (stA : CompSt)
    (h : attachAttacker lookupNode st name aid eps = .ok (a, stA)) :
    a.entryRef = a.reachedRef := by
  unfold attachAttacker at h
  split at h
  split at h
  dsimp only at h
  split at h
  · simp at h
  · simp only [Except.ok.injEq, Prod.mk.injEq] at h
    obtain ⟨h1, _⟩ := h
    subst h1
    rfl

theorem heapGet_compromise_reached (s : CompSt) (a : AttackerH) (nid : Nat)
    (hmem : a.aid ∉ compByGet s nid) (hlt : a.reachedRef < s.heap.length) :
    heapGet (compromise s a nid) a.reachedRef = heapGet s a.reachedRef ++ [nid] := by
  simp only [compromise, if_neg hmem, heapSet, heapGet]
  rw [getD_set_self _ _ _ _ hlt]

theorem heapGet_undo_reached (s : CompSt) (a : AttackerH) (nid : Nat)
    (hmem : a.aid ∈ compByGet s nid) (hlt : a.reachedRef < s.heap.length) :
    heapGet (undoCompromise s a nid) a.reachedRef = (heapGet s a.reachedRef).erase nid := by
  simp only [undoCompromise, if_pos hmem, heapSet, heapGet]
  rw [getD_set_self _ _ _ _ hlt]

/-- C10: a successful `attach_attackers` leaves the created attacker with
`entry_points` being the same list object as `reached_attack_steps`.
Consequently the two views are element-for-element equal after any later
sequence of `compromise`/`undo_compromise` operations, every later
`compromise` of a new node appends that node to the `entry_points` view,
and every `undo_compromise` removes it — `entry_points` does not stay
fixed at the attach-time set. -/
theorem c10_entry_alias (lookupNode : String → Option Nat) (st : CompSt)
    (name : String) (aid : Nat) (eps : List (String × List String))
    (a : AttackerH) (stA : CompSt)
    (h : attachAttacker lookupNode st name aid eps = .ok (a, stA)) :
    a.entryRef = a.reachedRef
    ∧ (∀ ops : List (Bool × Nat),
        heapGet (ops.foldl (fun s op =>
          if op.1 then compromise s a op.2 else undoCompromise s a op.2) stA) a.entryRef
        = heapGet (ops.foldl (fun s op =>
          if op.1 then compromise s a op.2 else undoCompromise s a op.2) stA) a.reachedRef)
    ∧ (∀ s nid, a.aid ∉ compByGet s nid → a.reachedRef < s.heap.length →
        heapGet (compromise s a nid) a.entryRef = heapGet s a.entryRef ++ [nid])
    ∧ (∀ s nid, a.aid ∈ compByGet s nid → a.reachedRef < s.heap.length →
        heapGet (undoCompromise s a nid) a.entryRef = (heapGet s a.entryRef).erase nid) := by
  have he := attachAttacker_entryRef_eq lookupNode st name aid eps a stA h
  refine ⟨he, fun ops => by rw [he], ?_, ?_⟩
  · intro s nid hmem hlt
    rw [he]
    exact heapGet_compromise_reached s a nid hmem hlt
  · intro s nid hmem hlt
    rw [he]
    exact heapGet_undo_reached s a nid hmem hlt

/-- Concrete attach scenario for the C10 witness: the graph resolves the
full name `A:x` to node 5 and the attacker has that single entry point. -/
def lookW : String → Option Nat := fun s => if s = "A:x" then some 5 else none

def attackerW : AttackerH := ⟨0, "Bob", 1, 1⟩

def stW : CompSt := ⟨[[], [5]], [(5, [0])]⟩

/-- Witness for C10: the concrete attach succeeds and yields an attacker
whose two list references coincide, with the stated consequences. -/
theorem c10_entry_alias_witness :
    attachAttacker lookW ⟨[], []⟩ "Bob" 0 [("A", ["x"])] = .ok (attackerW, stW)
    ∧ (attackerW.entryRef = attackerW.reachedRef
      ∧ (∀ ops : List (Bool × Nat),
          heapGet (ops.foldl (fun s op =>
            if op.1 then compromise s attackerW op.2
            else undoCompromise s attackerW op.2) stW) attackerW.entryRef
          = heapGet (ops.foldl (fun s op =>
            if op.1 then compromise s attackerW op.2
            else undoCompromise s attackerW op.2) stW) attackerW.reachedRef)
      ∧ (∀ s nid, attackerW.aid ∉ compByGet s nid →
            attackerW.reachedRef < s.heap.length →
          heapGet (compromise s attackerW nid) attackerW.entryRef
            = heapGet s attackerW.entryRef ++ [nid])
      ∧ (∀ s nid, attackerW.aid ∈ compByGet s nid →
            attackerW.reachedRef < s.heap.length →
          heapGet (undoCompromise s attackerW nid) attackerW.entryRef
            = (heapGet s attackerW.entryRef).erase nid)) := by
  have h : attachAttacker lookW ⟨[], []⟩ "Bob" 0 [("A", ["x"])] = .ok (attackerW, stW) := by
    rfl
  exact ⟨h, c10_entry_alias lookW ⟨[], []⟩ "Bob" 0 [("A", ["x"])] attackerW stW h⟩

/-- C4: the claim says a missing entry point is logged and skipped and the
attacker still created non-fatally.  Instead, when an entry point's full
name has no node, the warning message references the undefined identifier
`attack_step_id` and `attach_attackers` raises `NameError`, aborting the
attachment. -/
theorem c4_attach_bug :
    attachAttackers (fun _ => none) [("Eve", [("A", ["compromise"])])] 0 ⟨[], []⟩
      = .error (.nameError "attack_step_id") := by
  rfl

/-! ## AttackGraph store (`attackgraph.py` and `node.py`)

Nodes are owned by the graph: the arena is `nodes`, a node is identified
by the id `add_node` assigns, and the two lookup dictionaries map keys to
node identities.  Dictionary keys are dynamically typed (`PyKey`): the
`id_to_node` dictionary only ever receives integer keys, but `_from_dict`
also calls `get_node_by_id` with full-name strings from the serialized
`children`/`parents` lists. -/

inductive PyKey where
  | i (n : Nat)
  | s (str : String)
deriving DecidableEq, Repr

/-- Value of a node's `tags` attribute: a list of strings normally, but
`_from_dict` assigns the serialized `str(tags)` string back to it. -/
inductive TagsVal where
  | lst (xs : List String)
  | strv (s : String)
deriving DecidableEq, Repr

/-- Python `str` of a list of strings, e.g. `[\x27a\x27, \x27b\x27]`. -/
def pyListRepr (xs : List String) : String :=
  "[" ++ String.intercalate ", " (xs.map (fun s => "\x27" ++ s ++ "\x27")) ++ "]"

/-- Python truthiness of a `tags` value (`if self.tags:`). -/
def tagsTruthy : TagsVal → Bool
  | .lst xs => !xs.isEmpty
  | .strv s => s != ""

/-- Python `str` of a `tags` value. -/
def tagsStr : TagsVal → String
  | .lst xs => pyListRepr xs
  | .strv s => s

/-- Python `str` of a bool. -/
def pyBoolStr (b : Bool) : String := if b then "True" else "False"

/-- `AttackGraphNode` (node.py): edges are id references into the owning
graph's arena; the asset back-reference is kept by its name (the
serialized identity) and `compromised_by` by attacker names; the
`defense_status` float and the `ttc` and `extras` payloads are opaque to
the logic verified here and kept in their serialized string form. -/
structure AGNode where
  nid : Option Nat
  ntype : String
  name : String
  ttc : Option String
  assetName : Option String
  children : List Nat
  parents : List Nat
  defenseStatus : Option String
  existenceStatus : Option Bool
  isViable : Bool
  isNecessary : Bool
  compromisedBy : List String
  tags : TagsVal
  mitreInfo : Option String
  extras : Option String
deriving DecidableEq, Repr

/-- `AttackGraphNode.get_full_name` (node.py lines 123–133): the asset
name when an asset is attached, otherwise `str(self.id)`. -/
def AGNode.getFullName (n : AGNode) : String :=
  match n.assetName with
  | some a => a ++ ":" ++ n.name
  | none =>
    (match n.nid with | some i => toString i | none => "None") ++ ":" ++ n.name

/-- `Attacker` as stored in the graph's attacker collection (entry points
and reached steps as node-id references; only serialization touches these
in the store model — the compromise bookkeeping has its own model
above). -/
structure AGAttacker where
  aid : Option Nat
  name : String
  entryPoints : List Nat
  reached : List Nat
deriving DecidableEq, Repr

/-- `AttackGraph`: node and attacker collections, the lookup dictionaries
and the two id counters. -/
structure AG where
  nodes : List AGNode
  idToNode : List (PyKey × Nat)
  fullNameToNode : List (String × Nat)
  nextNodeId : Nat
  attackers : List AGAttacker
  idToAttacker : List (PyKey × Nat)
  nextAttackerId : Nat
deriving DecidableEq, Repr

/-- A freshly constructed `AttackGraph()`. -/
def emptyAG : AG := ⟨[], [], [], 0, [], [], 0⟩

/-- `get_node_by_id`: dictionary lookup with whatever key the caller
passes. -/
def getNodeByKey (g : AG) (k : PyKey) : Option Nat :=
  dictGet g.idToNode k

/-- `get_node_by_full_name`. -/
def getNodeByFullName (g : AG) (fn : String) : Option Nat :=
  dictGet g.fullNameToNode fn

/-- Fetch the node object with identity `i` from the arena. -/
def arenaGet (g : AG) (i : Nat) : Option AGNode :=
  g.nodes.find? (fun n => n.nid == some i)

/-- In-place mutation of the node object with identity `i`. -/
def updateNode (g : AG) (i : Nat) (f : AGNode → AGNode) : AG :=
  { g with nodes := g.nodes.map (fun n => if n.nid = some i then f n else n) }

/-- The id `add_node` assigns: `node_id or self.next_node_id`, so a
missing id — and also an explicit id of `0`, which is falsy — falls back
to the counter. -/
def resolveNodeId (g : AG) (nodeId : Option Nat) : Nat :=
  match nodeId with
  | none => g.nextNodeId
  | some k => if k = 0 then g.nextNodeId else k

/-- `AttackGraph.add_node` (attackgraph.py lines 492–510).  The node is
appended to `self.nodes` and given its id *before* the duplicate-id
check, so a rejected insert leaves the node in the list; on success the
counter advances to `max(id + 1, counter)` and both dictionaries are
updated — the full-name entry unconditionally, overwriting any node
already registered under the same full name. -/
def addNode (g : AG) (node : AGNode) (nodeId : Option Nat) : Option PyErr × AG :=
  let newId := resolveNodeId g nodeId
  let node1 := { node with nid := some newId }
  let nodes1 := g.nodes ++ [node1]
  if (dictGet g.idToNode (.i newId)).isSome then
    (some (.valueError "Node index already in use."), { g with nodes := nodes1 })
  else
    (none, { g with
      nodes := nodes1
      nextNodeId := max (newId + 1) g.nextNodeId
      idToNode := dictSet g.idToNode (.i newId) newId
      fullNameToNode := dictSet g.fullNameToNode node1.getFullName newId })

/-- First loop of `remove_node`: for every child object, remove the node
from the child's `parents` (`list.remove`, raising `ValueError` when
absent).  A child id with no node in the arena denotes an object no
longer owned by the graph, whose mutation is not graph-visible. -/
def detachChildren (i : Nat) : List Nat → AG → Option PyErr × AG
  | [], g => (none, g)
  | cid :: rest, g =>
    match arenaGet g cid with
    | none => detachChildren i rest g
    | some c =>
      if i ∈ c.parents then
        detachChildren i rest
          (updateNode g cid (fun n => { n with parents := n.parents.erase i }))
      else (some (.valueError "list.remove(x): x not in list"), g)

/-- Second loop of `remove_node`: the mirror image for parents. -/
def detachParents (i : Nat) : List Nat → AG → Option PyErr × AG
  | [], g => (none, g)
  | pid0 :: rest, g =>
    match arenaGet g pid0 with
    | none => detachParents i rest g
    | some p =>
      if i ∈ p.children then
        detachParents i rest
          (updateNode g pid0 (fun n => { n with children := n.children.erase i }))
      else (some (.valueError "list.remove(x): x not in list"), g)

/-- `self.nodes.remove(node)`: remove the first occurrence of the node
object, `none` when it is absent (`ValueError`). -/
def removeFirstById : List AGNode → Nat → Option (List AGNode)
  | [], _ => none
  | n :: rest, i =>
    if n.nid = some i then some rest
    else (removeFirstById rest i).map (n :: ·)

/-- `AttackGraph.remove_node` (lines 512–523): detach from all children
and parents, remove from the node list, delete from both dictionaries
(`del`, raising `KeyError` on a missing key). -/
def removeNode (g : AG) (i : Nat) : Option PyErr × AG :=
  match arenaGet g i with
  | none => (some (.valueError "list.remove(x): x not in list"), g)
  | some node =>
    match detachChildren i node.children g with
    | (some e, g1) => (some e, g1)
    | (none, g1) =>
      match detachParents i node.parents g1 with
      | (some e, g2) => (some e, g2)
      | (none, g2) =>
        match removeFirstById g2.nodes i with
        | none => (some (.valueError "list.remove(x): x not in list"), g2)
        | some nodes2 =>
          if (dictGet g2.idToNode (.i i)).isSome then
            if (dictGet g2.fullNameToNode node.getFullName).isSome then
              (none, { g2 with
                nodes := nodes2
                idToNode := dictDel g2.idToNode (.i i)
                fullNameToNode := dictDel g2.fullNameToNode node.getFullName })
            else (some (.keyError node.getFullName),
              { g2 with nodes := nodes2, idToNode := dictDel g2.idToNode (.i i) })
          else (some (.keyError "id"), { g2 with nodes := nodes2 })

/-! ### Linking pass of `_generate_graph` (C3) -/

/-- Linking step of `AttackGraph._generate_graph` (lines 468–480): each
resolved target asset name is combined with the attack step name into a
full name and looked up; on success the child and parent edges are
appended, but in the not-found branch the message assigned to `msg`
references the undefined identifier `target_node_id`, so Python raises
`NameError` before the intended `AttackGraphStepExpressionError` is ever
constructed. -/
def linkTargets (g : AG) (srcId : Nat) (attackStep : String) :
    List String → Except PyErr AG
  | [] => .ok g
  | assetName :: rest =>
    match getNodeByFullName g (assetName ++ ":" ++ attackStep) with
    | none => .error (.nameError "target_node_id")
    | some tgt =>
      linkTargets
        (updateNode
          (updateNode g srcId (fun n => { n with children := n.children ++ [tgt] }))
          tgt (fun n => { n with parents := n.parents ++ [srcId] }))
        srcId attackStep rest

/-- Classifier distinguishing the raised error kinds. -/
def PyErr.isStepExpressionError : PyErr → Bool
  | .stepExpressionError _ => true
  | _ => false

/-! ### Serialization (C2) -/

/-- Serialized node record (`AttackGraphNode.to_dict`): `children` and
`parents` hold full-name strings; a sparse optional field is `none` when
its key is absent from the dict. -/
structure NodeDict where
  id : Option Nat
  ntype : String
  name : String
  ttc : Option String
  children : List String
  parents : List String
  compromisedBy : List String
  asset : Option String
  defenseStatus : Option String
  existenceStatus : Option String
  isViable : Option String
  isNecessary : Option String
  mitreInfo : Option String
  tags : Option String
  extra : Option String
deriving DecidableEq, Repr

/-- Serialized attacker record (`Attacker.to_dict`). -/
structure AttackerDict where
  id : Option Nat
  name : String
  entryPoints : List String
  reached : List String
deriving DecidableEq, Repr

/-- Serialized graph (`AttackGraph._to_dict`). -/
structure GraphDict where
  attackSteps : List NodeDict
  attackers : List AttackerDict
deriving DecidableEq, Repr

/-- `AttackGraphNode.to_dict` (node.py lines 31–60): ids, base fields and
the child/parent references as the referenced nodes' full names;
`is_viable`/`is_necessary` are booleans and therefore never `None`, so
they are always emitted; `tags` is emitted as `str(self.tags)` only when
truthy; `extras` is emitted (under the key `extra`) only when truthy. -/
def nodeToDict (g : AG) (n : AGNode) : NodeDict :=
  { id := n.nid
    ntype := n.ntype
    name := n.name
    ttc := n.ttc
    children := n.children.map
      (fun cid => ((arenaGet g cid).map AGNode.getFullName).getD "")
    parents := n.parents.map
      (fun pid0 => ((arenaGet g pid0).map AGNode.getFullName).getD "")
    compromisedBy := n.compromisedBy
    asset := n.assetName
    defenseStatus := n.defenseStatus
    existenceStatus := n.existenceStatus.map pyBoolStr
    isViable := some (pyBoolStr n.isViable)
    isNecessary := some (pyBoolStr n.isNecessary)
    mitreInfo := n.mitreInfo
    tags := if tagsTruthy n.tags then some (tagsStr n.tags) else none
    extra := n.extras }

/-- `Attacker.to_dict` (attacker.py lines 20–30). -/
def attackerToDict (g : AG) (a : AGAttacker) : AttackerDict :=
  { id := a.aid
    name := a.name
    entryPoints := a.entryPoints.map
      (fun nid0 => ((arenaGet g nid0).map AGNode.getFullName).getD "")
    reached := a.reached.map
      (fun nid0 => ((arenaGet g nid0).map AGNode.getFullName).getD "") }

/-- `AttackGraph._to_dict` (lines 182–193). -/
def AG.toDict (g : AG) : GraphDict :=
  { attackSteps := g.nodes.map (nodeToDict g)
    attackers := g.attackers.map (attackerToDict g) }

/-- First loop of `AttackGraph._from_dict` (lines 212–232): each node is
rebuilt from `type`, `name`, `ttc` and the sparse optional fields — the
serialized id is ignored here (`add_node` is called without an id and
assigns fresh sequential ids), the string forms are parsed back
(`== 'True'` for the booleans), `tags` receives the serialized *string*
itself, and `children`/`parents`/`compromised_by`/`asset`/`extras` start
empty. -/
def nodeFromDict (nd : NodeDict) : AGNode :=
  { nid := none
    ntype := nd.ntype
    name := nd.name
    ttc := nd.ttc
    assetName := none
    children := []
    parents := []
    defenseStatus := nd.defenseStatus
    existenceStatus := nd.existenceStatus.map (fun s => s == "True")
    isViable := match nd.isViable with | some s => s == "True" | none => true
    isNecessary := match nd.isNecessary with | some s => s == "True" | none => true
    compromisedBy := []
    tags := match nd.tags with | some s => .strv s | none => .lst []
    mitreInfo := nd.mitreInfo
    extras := none }

/-- The `add_node` calls of the first `_from_dict` loop, with a raised
`ValueError` propagating. -/
def addAllNodes : List NodeDict → AG → Except PyErr AG
  | [], g => .ok g
  | nd :: rest, g =>
    match addNode g (nodeFromDict nd) none with
    | (some e, _) => .error e
    | (none, g1) => addAllNodes rest g1

/-- Child re-linking in the second `_from_dict` loop: every serialized
`children` entry — a full-name string — is passed to `get_node_by_id`,
whose dictionary only holds integer keys; a miss makes `_from_dict`
return `None`. -/
def linkChildren (idx : Nat) : List String → AG → Option AG
  | [], g => some g
  | fn :: rest, g =>
    match getNodeByKey g (.s fn) with
    | none => none
    | some cidx =>
      linkChildren idx rest
        (updateNode g idx (fun n => { n with children := n.children ++ [cidx] }))

/-- Parent re-linking, the mirror image. -/
def linkParents (idx : Nat) : List String → AG → Option AG
  | [], g => some g
  | fn :: rest, g =>
    match getNodeByKey g (.s fn) with
    | none => none
    | some pidx =>
      linkParents idx rest
        (updateNode g idx (fun n => { n with parents := n.parents ++ [pidx] }))

/-- One iteration of the second `_from_dict` loop (lines 235–279): the
record's serialized id is looked up (an integer key; a miss is logged and
the record skipped), the children and parents are re-linked, and with a
model supplied the asset is re-attached by name (a miss returns `None`).
The model-side `attack_step_nodes` bookkeeping mutates only the external
model object and has no graph-visible effect. -/
def relinkNode (modelAssets : Option (List String)) (nd : NodeDict) (g : AG) :
    Option AG :=
  match nd.id.bind (fun i => getNodeByKey g (.i i)) with
  | none => some g
  | some idx =>
    match linkChildren idx nd.children g with
    | none => none
    | some g1 =>
      match linkParents idx nd.parents g1 with
      | none => none
      | some g2 =>
        match modelAssets, nd.asset with
        | some assets, some an =>
          if an ∈ assets then
            some (updateNode g2 idx (fun n => { n with assetName := some an }))
          else none
        | _, _ => some g2

/-- The second `_from_dict` loop over all serialized records. -/
def relinkAll (modelAssets : Option (List String)) :
    List NodeDict → AG → Option AG
  | [], g => some g
  | nd :: rest, g =>
    match relinkNode modelAssets nd g with
    | none => none
    | some g1 => relinkAll modelAssets rest g1

/-- `AttackGraph._from_dict` (lines 199–294).  The attacker loop (lines
281–292) calls `add_attacker(name=..., id=..., entry_points=...,
reached_attack_steps=...)`, but `add_attacker` has no parameters named
`name` or `id`, so the first serialized attacker raises `TypeError`
before any attacker is rebuilt. -/
def AG.fromDict (d : GraphDict) (modelAssets : Option (List String)) :
    Except PyErr (Option AG) :=
  match addAllNodes d.attackSteps emptyAG with
  | .error e => .error e
  | .ok g =>
    match relinkAll modelAssets d.attackSteps g with
    | none => .ok none
    | some g2 =>
      if d.attackers.isEmpty then .ok (some g2)
      else .error (.typeError "add_attacker() got an unexpected keyword argument")

/-- Modelled from the spec: `save_dict_to_file` and
`load_dict_from_json_file`/`load_dict_from_yaml_file`
(`maltoolbox.file_utils`, absent from the sources under verification)
persist the dictionary to JSON/YAML and read it back losslessly (spec §6:
the produced format is the serialized map itself, the format chosen by
file extension).  The file layer is therefore the identity on the
dictionary, and `load_from_file(save_to_file(g), model)` is
`_from_dict(_to_dict(g), model)`. -/
def saveLoad (g : AG) (modelAssets : Option (List String)) :
    Except PyErr (Option AG) :=
  AG.fromDict (AG.toDict g) modelAssets

/-- A two-node graph with one `a → b` edge (no assets, no attackers), as
produced by two `add_node` calls and one linking step. -/
def nodeRT0 : AGNode :=
  ⟨some 0, "or", "a", none, none, [1], [], none, none, true, true, [], .lst [], none, none⟩

def nodeRT1 : AGNode :=
  ⟨some 1, "or", "b", none, none, [], [0], none, none, true, true, [], .lst [], none, none⟩

def gRT : AG :=
  ⟨[nodeRT0, nodeRT1], [(.i 0, 0), (.i 1, 1)], [("0:a", 0), ("1:b", 1)], 2, [], [], 0⟩

/-- A one-node, no-edge graph carrying one attacker. -/
def nodeAT : AGNode :=
  ⟨some 0, "or", "a", none, none, [], [], none, none, true, true, [], .lst [], none, none⟩

def gAT : AG :=
  ⟨[nodeAT], [(.i 0, 0)], [("0:a", 0)], 1, [⟨some 0, "Eve", [], []⟩], [(.i 0, 0)], 1⟩

/-- C2: the claim says `load_from_file(save_to_file(g))` reproduces an
isomorphic graph, with and without a model at load time.  It does not:
for a two-node graph with a single edge the load returns `None` in both
modes (the serialized children are full-name strings, which `_from_dict`
feeds to the integer-keyed `get_node_by_id`), and for a graph with one
attacker and no edges the load raises `TypeError` (`add_attacker` is
called with the nonexistent keyword arguments `name` and `id`). -/
theorem c2_roundtrip_bug :
    saveLoad gRT none = .ok none
    ∧ saveLoad gRT (some ["A"]) = .ok none
    ∧ saveLoad gAT none
      = .error (.typeError "add_attacker() got an unexpected keyword argument") := by
  exact ⟨rfl, rfl, rfl⟩

/-- C3: the claim says an unresolvable `reaches` target full name aborts
construction with `AttackGraphStepExpressionError`, propagated with the
offending full name in the message.  Instead the linking step raises
`NameError` for the undefined identifier `target_node_id` while
formatting the message, so the error that propagates is not the
step-expression-resolution kind and carries no full name. -/
theorem c3_link_error_bug :
    linkTargets gRT 0 "y" ["B"] = .error (.nameError "target_node_id")
    ∧ (PyErr.nameError "target_node_id").isStepExpressionError = false := by
  exact ⟨rfl, rfl⟩

/-! ### Uniqueness invariant (C6) -/

theorem dictGet_dictSet_ne {κ ν : Type} [DecidableEq κ]
    (l : List (κ × ν)) (k : κ) (v : ν) (k2 : κ) (h : k2 ≠ k) :
    dictGet (dictSet l k v) k2 = dictGet l k2 := by
  have hne : ¬ k = k2 := fun he => h he.symm
  induction l with
  | nil => simp [dictGet, dictSet, hne]
  | cons p rest ih =>
    rcases p with ⟨k1, v1⟩
    by_cases hk : k1 = k
    · have hne1 : ¬ k1 = k2 := by rw [hk]; exact hne
      simp [dictSet, hk, dictGet, hne, hne1]
    · simp [dictSet, hk, dictGet, ih]

theorem dictGet_dictDel_ne {κ ν : Type} [DecidableEq κ]
    (l : List (κ × ν)) (k : κ) (k2 : κ) (h : k2 ≠ k) :
    dictGet (dictDel l k) k2 = dictGet l k2 := by
  induction l with
  | nil => rfl
  | cons p rest ih =>
    rcases p with ⟨k1, v1⟩
    by_cases hk : k1 = k
    · have hne1 : ¬ k1 = k2 := by
        rw [hk]
        exact fun he => h he.symm
      have hne2 : ¬ k = k2 := fun he => h he.symm
      simp [dictDel, hk, dictGet, hne1, hne2]
    · simp [dictDel, hk, dictGet, ih]

theorem map_nid_update (l : List AGNode) (i : Nat) (f : AGNode → AGNode)
    (hf : ∀ n, (f n).nid = n.nid) :
    (l.map (fun n => if n.nid = some i then f n else n)).map AGNode.nid
      = l.map AGNode.nid := by
  induction l with
  | nil => rfl
  | cons n rest ih =>
    simp only [List.map_cons, ih]
    by_cases h : n.nid = some i
    · simp [h, hf]
    · simp [h]

theorem detachChildren_preserves (i : Nat) :
    ∀ (cids : List Nat) (g : AG),
      (detachChildren i cids g).2.nodes.map AGNode.nid = g.nodes.map AGNode.nid
      ∧ (detachChildren i cids g).2.idToNode = g.idToNode := by
  intro cids
  induction cids with
  | nil => intro g; exact ⟨rfl, rfl⟩
  | cons cid rest ih =>
    intro g
    cases harena : arenaGet g cid with
    | none =>
      simp only [detachChildren, harena]
      exact ih g
    | some c =>
      by_cases hmem : i ∈ c.parents
      · simp only [detachChildren, harena, if_pos hmem]
        have h1 := ih (updateNode g cid (fun n => { n with parents := n.parents.erase i }))
        refine ⟨?_, ?_⟩
        · rw [h1.1]
          exact map_nid_update g.nodes cid _ (fun n => rfl)
        · rw [h1.2]; rfl
      · simp [detachChildren, harena, hmem]

theorem detachParents_preserves (i : Nat) :
    ∀ (pids : List Nat) (g : AG),
      (detachParents i pids g).2.nodes.map AGNode.nid = g.nodes.map AGNode.nid
      ∧ (detachParents i pids g).2.idToNode = g.idToNode := by
  intro pids
  induction pids with
  | nil => intro g; exact ⟨rfl, rfl⟩
  | cons pid0 rest ih =>
    intro g
    cases harena : arenaGet g pid0 with
    | none =>
      simp only [detachParents, harena]
      exact ih g
    | some c =>
      by_cases hmem : i ∈ c.children
      · simp only [detachParents, harena, if_pos hmem]
        have h1 := ih (updateNode g pid0 (fun n => { n with children := n.children.erase i }))
        refine ⟨?_, ?_⟩
        · rw [h1.1]
          exact map_nid_update g.nodes pid0 _ (fun n => rfl)
        · rw [h1.2]; rfl
      · simp [detachParents, harena, hmem]

theorem removeFirstById_spec :
    ∀ (l : List AGNode) (i : Nat) (l2 : List AGNode),
      removeFirstById l i = some l2 →
      ∃ pre x post, l = pre ++ x :: post ∧ x.nid = some i ∧ l2 = pre ++ post
        ∧ ∀ n ∈ pre, n.nid ≠ some i := by
  intro l
  induction l with
  | nil => intro i l2 h; simp [removeFirstById] at h
  | cons n rest ih =>
    intro i l2 h
    rw [removeFirstById] at h
    by_cases hn : n.nid = some i
    · rw [if_pos hn] at h
      obtain rfl := Option.some.inj h
      exact ⟨[], n, rest, by simp, hn, by simp, by simp⟩
    · rw [if_neg hn] at h
      cases hrec : removeFirstById rest i with
      | none => rw [hrec] at h; simp at h
      | some r2 =>
        rw [hrec] at h
        simp only [Option.map_some'] at h
        obtain rfl := Option.some.inj h
        obtain ⟨pre, x, post, hsplit, hx, hr2, hpre⟩ := ih i r2 hrec
        refine ⟨n :: pre, x, post, by simp [hsplit], hx, by simp [hr2], ?_⟩
        intro m hm
        rcases List.mem_cons.mp hm with rfl | hm2
        · exact hn
        · exact hpre m hm2

/-- A node id is a key of the id dictionary. -/
def idRegistered (d : List (PyKey × Nat)) : Option Nat → Bool
  | some i => (dictGet d (.i i)).isSome
  | none => false

/-- Uniqueness invariant claimed by the spec, restricted to what the code
maintains: the node list carries pairwise distinct (assigned) ids, each a
key of `id_to_node`.  Full names are deliberately absent — see the
counterexample. -/
def AGInv (g : AG) : Prop :=
  (g.nodes.map AGNode.nid).Nodup
  ∧ ∀ o ∈ g.nodes.map AGNode.nid, idRegistered g.idToNode o = true

instance decidableAGInv (g : AG) : Decidable (AGInv g) := by
  unfold AGInv
  infer_instance

theorem addNode_inv (g : AG) (node : AGNode) (oid : Option Nat)
    (hinv : AGInv g) (hok : (addNode g node oid).1 = none) :
    AGInv (addNode g node oid).2 := by
  by_cases hdup : (dictGet g.idToNode (.i (resolveNodeId g oid))).isSome
  · exact absurd hok (by simp [addNode, hdup])
  · have hnotin : some (resolveNodeId g oid) ∉ g.nodes.map AGNode.nid := by
      intro hmem
      have hreg := hinv.2 _ hmem
      rw [idRegistered] at hreg
      exact hdup hreg
    have hnodes : (addNode g node oid).2.nodes
        = g.nodes ++ [{ node with nid := some (resolveNodeId g oid) }] := by
      simp [addNode, hdup]
    have hdict : (addNode g node oid).2.idToNode
        = dictSet g.idToNode (.i (resolveNodeId g oid)) (resolveNodeId g oid) := by
      simp [addNode, hdup]
    constructor
    · rw [hnodes, List.map_append, List.nodup_append]
      refine ⟨hinv.1, by simp, ?_⟩
      intro o ho ho2
      simp only [List.map_cons, List.map_nil, List.mem_singleton] at ho2
      subst ho2
      exact hnotin ho
    · intro o ho
      rw [hnodes, List.map_append, List.mem_append] at ho
      rw [hdict]
      rcases ho with ho | ho
      · have hreg := hinv.2 o ho
        cases o with
        | none => rw [idRegistered] at hreg; exact absurd hreg (by simp)
        | some j =>
          rw [idRegistered] at hreg ⊢
          have hne : j ≠ resolveNodeId g oid := by
            intro he
            subst he
            exact hnotin ho
          rw [dictGet_dictSet_ne _ _ _ _ (fun he => hne (PyKey.i.inj he))]
          exact hreg
      · simp only [List.map_cons, List.map_nil, List.mem_singleton] at ho
        subst ho
        rw [idRegistered, dictGet_dictSet_self]
        rfl

theorem removeNode_inv (g : AG) (i : Nat)
    (hinv : AGInv g) (hok : (removeNode g i).1 = none) :
    AGInv (removeNode g i).2 := by
  cases harena : arenaGet g i with
  | none =>
    simp only [removeNode, harena] at hok
    exact absurd hok (by simp)
  | some node =>
    simp only [removeNode, harena] at hok ⊢
    have hdc := detachChildren_preserves i node.children g
    cases hdcr : detachChildren i node.children g with
    | mk e1 g1 =>
      rw [hdcr] at hdc
      simp only [hdcr] at hok ⊢
      cases e1 with
      | some e => simp at hok
      | none =>
        simp only [] at hok ⊢
        have hdp := detachParents_preserves i node.parents g1
        cases hdpr : detachParents i node.parents g1 with
        | mk e2 g2 =>
          rw [hdpr] at hdp
          simp only [hdpr] at hok ⊢
          cases e2 with
          | some e => simp at hok
          | none =>
            simp only [] at hok ⊢
            have hmapeq : g2.nodes.map AGNode.nid = g.nodes.map AGNode.nid := by
              rw [hdp.1, hdc.1]
            have hdicteq : g2.idToNode = g.idToNode := by
              rw [hdp.2, hdc.2]
            cases hrem : removeFirstById g2.nodes i with
            | none =>
              simp only [hrem] at hok
              exact absurd hok (by simp)
            | some nodes2 =>
              simp only [hrem] at hok ⊢
              obtain ⟨pre, x, post, hsplit, hx, hn2, hpre⟩ :=
                removeFirstById_spec g2.nodes i nodes2 hrem
              have hg2nodup : (g2.nodes.map AGNode.nid).Nodup := by
                rw [hmapeq]; exact hinv.1
              have hsubl : List.Sublist (nodes2.map AGNode.nid)
                  (g2.nodes.map AGNode.nid) := by
                rw [hn2, hsplit, List.map_append, List.map_append, List.map_cons]
                exact List.Sublist.append_left
                  (List.sublist_cons_self x.nid (post.map AGNode.nid)) _
              have honei : ∀ o ∈ nodes2.map AGNode.nid, o ≠ some i := by
                intro o ho
                rw [hn2, List.map_append, List.mem_append] at ho
                rcases ho with ho | ho
                · obtain ⟨n, hnp, rfl⟩ := List.mem_map.mp ho
                  exact hpre n hnp
                · have hnd : (x.nid :: post.map AGNode.nid).Nodup := by
                    have h9 := hg2nodup
                    rw [hsplit, List.map_append, List.map_cons,
                      List.nodup_append] at h9
                    exact h9.2.1
                  intro he
                  subst he
                  rw [hx] at hnd
                  exact (List.nodup_cons.mp hnd).1 ho
              by_cases hid : (dictGet g2.idToNode (.i i)).isSome
              · by_cases hfn :
                    (dictGet g2.fullNameToNode node.getFullName).isSome
                · rw [if_pos hid, if_pos hfn] at hok ⊢
                  constructor
                  · exact List.Nodup.sublist hsubl hg2nodup
                  · intro o ho
                    have hne := honei o ho
                    have hreg : idRegistered g2.idToNode o = true := by
                      rw [hdicteq]
                      apply hinv.2
                      rw [← hmapeq]
                      exact hsubl.subset ho
                    cases o with
                    | none => rw [idRegistered] at hreg; exact absurd hreg (by simp)
                    | some j =>
                      rw [idRegistered] at hreg ⊢
                      have hji : j ≠ i := fun he => hne (by rw [he])
                      rw [dictGet_dictDel_ne _ _ _
                        (fun he => hji (PyKey.i.inj he))]
                      exact hreg
                · rw [if_pos hid, if_neg hfn] at hok
                  simp at hok
              · rw [if_neg hid] at hok
                simp at hok

/-- C6 (amended): for successful operations the id half of the claimed
invariant holds — after any sequence of successful `add_node` and
`remove_node` calls the nodes carry pairwise distinct ids and a duplicate
id is rejected with `ValueError` — while full-name uniqueness is not
enforced (see the counterexample). -/
theorem c6_unique_ids_amended (g : AG) (node : AGNode) (oid : Option Nat) (i : Nat) :
    (AGInv g → (addNode g node oid).1 = none → AGInv (addNode g node oid).2)
    ∧ (AGInv g → (removeNode g i).1 = none → AGInv (removeNode g i).2)
    ∧ ((dictGet g.idToNode (.i (resolveNodeId g oid))).isSome →
        (addNode g node oid).1 = some (.valueError "Node index already in use."))
    ∧ AGInv emptyAG := by
  refine ⟨fun h1 h2 => addNode_inv g node oid h1 h2,
    fun h1 h2 => removeNode_inv g i h1 h2, ?_, by decide⟩
  intro hdup
  simp [addNode, hdup]

/-- Node used by the C6 concrete graphs: it carries an asset name, so its
full name is `A:x` regardless of the assigned id. -/
def nodeW : AGNode :=
  ⟨none, "or", "x", none, some "A", [], [], none, none, true, true, [], .lst [], none, none⟩

def gW1 : AG := (addNode emptyAG nodeW none).2

def gW2 : AG := (addNode gW1 nodeW none).2

/-- Witness for the amended C6 at concrete graphs: a successful insert
and a successful removal preserve the invariant, and inserting with the
already-used id 1 is rejected. -/
theorem c6_unique_ids_amended_witness :
    (AGInv emptyAG ∧ (addNode emptyAG nodeW none).1 = none
      ∧ AGInv (addNode emptyAG nodeW none).2)
    ∧ (AGInv gW1 ∧ (removeNode gW1 0).1 = none ∧ AGInv (removeNode gW1 0).2)
    ∧ ((dictGet gW2.idToNode (.i (resolveNodeId gW2 (some 1)))).isSome
      ∧ (addNode gW2 nodeW (some 1)).1
          = some (.valueError "Node index already in use.")) := by
  refine ⟨⟨by decide, by decide, ?_⟩, ⟨by decide, by decide, ?_⟩, by decide, ?_⟩
  · exact (c6_unique_ids_amended emptyAG nodeW none 0).1 (by decide) (by decide)
  · exact (c6_unique_ids_amended gW1 nodeW none 0).2.1 (by decide) (by decide)
  · exact (c6_unique_ids_amended gW2 nodeW (some 1) 0).2.2.1 (by decide)

/-- C6 (counterexample): the claim says no two nodes in the graph share a
full name and that inserting a duplicate is rejected.  Both `add_node`
calls below succeed, leaving the graph with two distinct nodes (ids 0 and
1) that share the full name `A:x` — the second insert merely overwrites
the full-name index entry. -/
theorem c6_unique_full_name_counterexample :
    (addNode emptyAG nodeW none).1 = none
    ∧ (addNode gW1 nodeW none).1 = none
    ∧ gW2.nodes.map AGNode.getFullName = ["A:x", "A:x"]
    ∧ gW2.nodes.map AGNode.nid = [some 0, some 1] := by
  exact ⟨by decide, by decide, by decide, by decide⟩

/-! ## Pattern matcher (`patternfinder/attackgraph_patterns.py`)

The pattern finder consumes only a node's identity (`node in
current_path`; node ids are unique within a graph and CPython's list
membership starts with an identity check) and its `children` edges, plus
arbitrary boolean predicates over nodes, so a node is embedded as its id
with its children ids. -/

structure PFNode where
  pid : Nat
  children : List Nat

/-- `SearchCondition`: the `matches` predicate (`matchesFn` here — the
original name is a reserved word) plus repetition bounds;
`maxRepeated = none` models an unbounded `math.inf` bound (used by the
repository's tests). -/
structure SearchCondition where
  matchesFn : PFNode → Bool
  greedy : Bool := false
  minRepeated : Nat := 1
  maxRepeated : Option Nat := some 1

/-- `SearchCondition.can_match_again`. -/
def canMatchAgain (c : SearchCondition) (numMatches : Nat) : Bool :=
  match c.maxRepeated with
  | none => true
  | some m => numMatches < m

/-- `SearchCondition.must_match_again`. -/
def mustMatchAgain (c : SearchCondition) (numMatches : Nat) : Bool :=
  numMatches < c.minRepeated

/-- Resolution of a child reference to its node. -/
def lookupPF (g : List PFNode) (i : Nat) : Option PFNode :=
  g.find? (fun n => n.pid == i)

mutual

/-- `find_matches_recursively` (lines 66–133) with explicit recursion
fuel (`none` = fuel exhausted; that the Python recursion terminates is
exactly what C9 asserts).  `path` is `current_path` (node ids), `acc` is
`matching_paths`, `cnt` is `condition_match_count`; the final nested if
mirrors `if not next_conds and current_path not in matching_paths`. -/
def findRecur (g : List PFNode) : Nat → PFNode → List SearchCondition →
    List Nat → List (List Nat) → Nat → Option (List (List Nat))
  | 0, _, _, _, _, _ => none
  | _ + 1, _, [], _, _, _ => none
  | fuel + 1, node, curr :: next, path, acc, cnt =>
    if node.pid ∈ path then some acc
    else
      match (if !next.isEmpty && !mustMatchAgain curr cnt then
          findRecur g fuel node next path acc 0 else some acc) with
      | none => none
      | some acc1 =>
        if curr.matchesFn node then
          match (if !next.isEmpty then
              foldChildren g fuel node.children next (path ++ [node.pid]) acc1 0
            else some acc1) with
          | none => none
          | some acc2 =>
            match (if canMatchAgain curr (cnt + 1) then
                foldChildren g fuel node.children (curr :: next)
                  (path ++ [node.pid]) acc2 (cnt + 1)
              else some acc2) with
            | none => none
            | some acc3 =>
              if next.isEmpty then
                if (path ++ [node.pid]) ∈ acc3 then some acc3
                else some (acc3 ++ [path ++ [node.pid]])
              else some acc3
        else some acc1

/-- The `for child in node.children:` loops of the recursion, threading
the accumulated result. -/
def foldChildren (g : List PFNode) : Nat → List Nat → List SearchCondition →
    List Nat → List (List Nat) → Nat → Option (List (List Nat))
  | _, [], _, _, acc, _ => some acc
  | fuel, cid :: rest, conds, path, acc, cnt =>
    match lookupPF g cid with
    | none => none
    | some cn =>
      match findRecur g fuel cn conds path acc cnt with
      | none => none
      | some acc1 => foldChildren g fuel rest conds path acc1 cnt

end

/-- The seed loop of `SearchPattern.find_matches` (lines 35–39): each
matching start node is searched with fresh empty path/result lists and
the results concatenated. -/
def runSeeds (g : List PFNode) (conds : List SearchCondition) (fuel : Nat) :
    List PFNode → List (List Nat) → Option (List (List Nat))
  | [], acc => some acc
  | n :: rest, acc =>
    match findRecur g fuel n conds [] [] 0 with
    | none => none
    | some r => runSeeds g conds fuel rest (acc ++ r)

/-- `SearchPattern.find_matches` (lines 17–41): seeds are the graph nodes
matching the first condition; `self.conditions[0]` on an empty condition
list raises `IndexError` (modelled as `none`). -/
def findMatches (g : List PFNode) (conds : List SearchCondition) (fuel : Nat) :
    Option (List (List Nat)) :=
  match conds with
  | [] => none
  | c0 :: rest0 => runSeeds g (c0 :: rest0) fuel (g.filter (fun n => c0.matchesFn n)) []

/-- Count of graph nodes not yet on the current path: the decreasing part
of the termination measure of the pattern search. -/
def freePF (g : List PFNode) (path : List Nat) : Nat :=
  (g.filter (fun n => decide (n.pid ∉ path))).length

theorem filter_imp_sublist {α : Type} (p q : α → Bool)
    (h : ∀ a, p a = true → q a = true) :
    ∀ l : List α, List.Sublist (l.filter p) (l.filter q) := by
  intro l
  induction l with
  | nil => simp
  | cons a l ih =>
    by_cases hp : p a = true
    · rw [List.filter_cons_of_pos hp, List.filter_cons_of_pos (h a hp)]
      exact ih.cons₂ a
    · rw [List.filter_cons_of_neg hp]
      by_cases hq : q a = true
      · rw [List.filter_cons_of_pos hq]
        exact ih.cons a
      · rw [List.filter_cons_of_neg hq]
        exact ih

theorem freePF_lt (g : List PFNode) (path : List Nat) (node : PFNode)
    (hg : node ∈ g) (hp : node.pid ∉ path) :
    freePF g (path ++ [node.pid]) < freePF g path := by
  have himp : ∀ n : PFNode, decide (n.pid ∉ path ++ [node.pid]) = true →
      decide (n.pid ∉ path) = true := by
    intro n hn
    simp only [decide_eq_true_eq] at hn ⊢
    intro hmem
    exact hn (by simp [hmem])
  have hsub := filter_imp_sublist _ _ himp g
  have hle := hsub.length_le
  rcases Nat.eq_or_lt_of_le hle with heq | hlt
  · exfalso
    have hlists := hsub.eq_of_length heq
    have hmemq : node ∈ g.filter (fun n => decide (n.pid ∉ path)) :=
      List.mem_filter.mpr ⟨hg, by simpa using hp⟩
    rw [← hlists] at hmemq
    have h2 := (List.mem_filter.mp hmemq).2
    simp at h2
  · exact hlt

theorem lookupPF_mem {g : List PFNode} {c : Nat} {m : PFNode}
    (h : lookupPF g c = some m) : m ∈ g :=
  List.mem_of_find?_eq_some h

/-- Fuel sufficiency of the pattern search: with the lexicographic
termination measure below the fuel, the search completes. -/
theorem find_total (g : List PFNode) (C : Nat)
    (hclosed : ∀ n ∈ g, ∀ c ∈ n.children, (lookupPF g c).isSome = true) :
    ∀ fuel : Nat,
      (∀ (node : PFNode) (conds : List SearchCondition) (path : List Nat)
          (acc : List (List Nat)) (cnt : Nat),
        node ∈ g → conds ≠ [] → conds.length ≤ C →
        freePF g path * (C + 1) + conds.length ≤ fuel →
        (findRecur g fuel node conds path acc cnt).isSome = true)
      ∧ (∀ (cids : List Nat) (conds : List SearchCondition) (path : List Nat)
          (acc : List (List Nat)) (cnt : Nat),
        (∀ c ∈ cids, (lookupPF g c).isSome = true) →
        conds ≠ [] → conds.length ≤ C →
        freePF g path * (C + 1) + conds.length ≤ fuel →
        (foldChildren g fuel cids conds path acc cnt).isSome = true) := by
  intro fuel
  induction fuel with
  | zero =>
    constructor
    · intro node conds path acc cnt _ hne _ hm
      exfalso
      have hpos := List.length_pos.mpr hne
      omega
    · intro cids conds path acc cnt _ hne _ hm
      exfalso
      have hpos := List.length_pos.mpr hne
      omega
  | succ fuel ih =>
    obtain ⟨ihS, ihT⟩ := ih
    have hS : ∀ (node : PFNode) (conds : List SearchCondition) (path : List Nat)
        (acc : List (List Nat)) (cnt : Nat),
        node ∈ g → conds ≠ [] → conds.length ≤ C →
        freePF g path * (C + 1) + conds.length ≤ fuel + 1 →
        (findRecur g (fuel + 1) node conds path acc cnt).isSome = true := by
      intro node conds path acc cnt hnode hne hlen hm
      cases conds with
      | nil => exact absurd rfl hne
      | cons curr next =>
        rw [findRecur]
        by_cases hp : node.pid ∈ path
        · simp [hp]
        · rw [if_neg hp]
          simp only [List.length_cons] at hm hlen
          have h1 : (if !next.isEmpty && !mustMatchAgain curr cnt then
              findRecur g fuel node next path acc 0 else some acc).isSome = true := by
            by_cases hc : (!next.isEmpty && !mustMatchAgain curr cnt) = true
            · rw [if_pos hc]
              have hnee : next ≠ [] := by
                have := (Bool.and_eq_true _ _).mp hc
                simpa using this.1
              have hnl := List.length_pos.mpr hnee
              exact ihS node next path acc 0 hnode hnee (by omega) (by omega)
            · rw [if_neg hc]; rfl
          obtain ⟨acc1, hacc1⟩ := Option.isSome_iff_exists.mp h1
          rw [hacc1]
          simp only [Option.bind_eq_bind, Option.some_bind]
          by_cases hmm : curr.matchesFn node = true
          · rw [if_pos hmm]
            have hfree := freePF_lt g path node hnode hp
            have hA : freePF g (path ++ [node.pid]) * (C + 1) + (C + 1)
                ≤ freePF g path * (C + 1) := by
              have := Nat.mul_le_mul_right (C + 1) hfree
              rw [Nat.succ_mul] at this
              exact this
            have h2 : (if !next.isEmpty then
                foldChildren g fuel node.children next (path ++ [node.pid]) acc1 0
                else some acc1).isSome = true := by
              by_cases hc2 : (!next.isEmpty) = true
              · rw [if_pos hc2]
                have hnee : next ≠ [] := by simpa using hc2
                have hnl := List.length_pos.mpr hnee
                exact ihT node.children next (path ++ [node.pid]) acc1 0
                  (fun c hc => hclosed node hnode c hc) hnee (by omega) (by omega)
              · rw [if_neg hc2]; rfl
            obtain ⟨acc2, hacc2⟩ := Option.isSome_iff_exists.mp h2
            rw [hacc2]
            simp only [Option.bind_eq_bind, Option.some_bind]
            have h3 : (if canMatchAgain curr (cnt + 1) then
                foldChildren g fuel node.children (curr :: next) (path ++ [node.pid])
                  acc2 (cnt + 1)
                else some acc2).isSome = true := by
              by_cases hc3 : canMatchAgain curr (cnt + 1) = true
              · rw [if_pos hc3]
                refine ihT node.children (curr :: next) (path ++ [node.pid]) acc2 (cnt + 1)
                  (fun c hc => hclosed node hnode c hc) (by simp) (by simpa using hlen) ?_
                simp only [List.length_cons]
                omega
              · rw [if_neg hc3]; rfl
            obtain ⟨acc3, hacc3⟩ := Option.isSome_iff_exists.mp h3
            rw [hacc3]
            simp only [Option.bind_eq_bind, Option.some_bind]
            by_cases hlast : next.isEmpty = true
            · rw [if_pos hlast]
              by_cases hin : (path ++ [node.pid]) ∈ acc3
              · rw [if_pos hin]; rfl
              · rw [if_neg hin]; rfl
            · rw [if_neg hlast]; rfl
          · rw [if_neg hmm]; rfl
    refine ⟨hS, ?_⟩
    intro cids
    induction cids with
    | nil =>
      intro conds path acc cnt _ _ _ _
      rw [foldChildren]
      rfl
    | cons cid rest ihc =>
      intro conds path acc cnt hcl hne hlen hm
      rw [foldChildren]
      obtain ⟨cn, hcn2⟩ := Option.isSome_iff_exists.mp (hcl cid (by simp))
      rw [hcn2]
      simp only []
      obtain ⟨acc1, hacc1⟩ := Option.isSome_iff_exists.mp
        (hS cn conds path acc cnt (lookupPF_mem hcn2) hne hlen hm)
      rw [hacc1]
      simp only []
      exact ihc conds path acc1 cnt (fun c hc => hcl c (by simp [hc])) hne hlen hm

/-- Structural properties of the search, by induction on the fuel: every
produced path extends the current path through the current node, paths
stay duplicate-free (the `node in current_path` guard), and the result
list stays duplicate-free (the `current_path not in matching_paths`
guard). -/
theorem find_props (g : List PFNode) :
    ∀ fuel : Nat,
      (∀ (node : PFNode) (conds : List SearchCondition) (path : List Nat)
          (acc : List (List Nat)) (cnt : Nat) (res : List (List Nat)),
        findRecur g fuel node conds path acc cnt = some res →
        (∀ p ∈ res, p ∈ acc ∨ ∃ rest, p = path ++ node.pid :: rest)
        ∧ (path.Nodup → (∀ p ∈ acc, p.Nodup) → ∀ p ∈ res, p.Nodup)
        ∧ (acc.Nodup → res.Nodup))
      ∧ (∀ (cids : List Nat) (conds : List SearchCondition) (path : List Nat)
          (acc : List (List Nat)) (cnt : Nat) (res : List (List Nat)),
        foldChildren g fuel cids conds path acc cnt = some res →
        (∀ p ∈ res, p ∈ acc ∨ ∃ rest, p = path ++ rest)
        ∧ (path.Nodup → (∀ p ∈ acc, p.Nodup) → ∀ p ∈ res, p.Nodup)
        ∧ (acc.Nodup → res.Nodup)) := by
  intro fuel
  induction fuel with
  | zero =>
    constructor
    · intro node conds path acc cnt res h
      rw [findRecur] at h
      exact absurd h (by simp)
    · intro cids conds path acc cnt res h
      cases cids with
      | nil =>
        rw [foldChildren] at h
        obtain rfl := Option.some.inj h
        exact ⟨fun p hp => Or.inl hp, fun _ ha p hp => ha p hp, fun ha => ha⟩
      | cons cid rest =>
        rw [foldChildren] at h
        cases hl : lookupPF g cid with
        | none => rw [hl] at h; simp at h
        | some cn =>
          rw [hl] at h
          simp only [] at h
          rw [findRecur] at h
          simp at h
  | succ fuel ih =>
    obtain ⟨ihS, ihT⟩ := ih
    have hS : ∀ (node : PFNode) (conds : List SearchCondition) (path : List Nat)
        (acc : List (List Nat)) (cnt : Nat) (res : List (List Nat)),
        findRecur g (fuel + 1) node conds path acc cnt = some res →
        (∀ p ∈ res, p ∈ acc ∨ ∃ rest, p = path ++ node.pid :: rest)
        ∧ (path.Nodup → (∀ p ∈ acc, p.Nodup) → ∀ p ∈ res, p.Nodup)
        ∧ (acc.Nodup → res.Nodup) := by
      intro node conds path acc cnt res h
      cases conds with
      | nil => rw [findRecur] at h; exact absurd h (by simp)
      | cons curr next =>
        rw [findRecur] at h
        by_cases hp : node.pid ∈ path
        · rw [if_pos hp] at h
          obtain rfl := Option.some.inj h
          exact ⟨fun p hp2 => Or.inl hp2, fun _ ha p hp2 => ha p hp2, fun ha => ha⟩
        · rw [if_neg hp] at h
          have hpath1 : path.Nodup → (path ++ [node.pid]).Nodup := by
            intro hnd
            rw [List.nodup_append]
            refine ⟨hnd, by simp, ?_⟩
            intro a ha ha2
            simp only [List.mem_singleton] at ha2
            subst ha2
            exact hp ha
          cases h1 : (if !next.isEmpty && !mustMatchAgain curr cnt then
              findRecur g fuel node next path acc 0 else some acc) with
          | none => rw [h1] at h; simp at h
          | some acc1 =>
            rw [h1] at h
            simp only [] at h
            have hP1 : (∀ p ∈ acc1, p ∈ acc ∨ ∃ rest, p = path ++ node.pid :: rest)
                ∧ (path.Nodup → (∀ p ∈ acc, p.Nodup) → ∀ p ∈ acc1, p.Nodup)
                ∧ (acc.Nodup → acc1.Nodup) := by
              by_cases hc : (!next.isEmpty && !mustMatchAgain curr cnt) = true
              · rw [if_pos hc] at h1
                exact ihS node next path acc 0 acc1 h1
              · rw [if_neg hc] at h1
                obtain rfl := Option.some.inj h1
                exact ⟨fun p hp2 => Or.inl hp2, fun _ ha p hp2 => ha p hp2, fun ha => ha⟩
            by_cases hmm : curr.matchesFn node = true
            · rw [if_pos hmm] at h
              cases h2 : (if !next.isEmpty then
                  foldChildren g fuel node.children next (path ++ [node.pid]) acc1 0
                  else some acc1) with
              | none => rw [h2] at h; simp at h
              | some acc2 =>
                rw [h2] at h
                simp only [] at h
                have hP2 : (∀ p ∈ acc2, p ∈ acc ∨ ∃ rest, p = path ++ node.pid :: rest)
                    ∧ (path.Nodup → (∀ p ∈ acc, p.Nodup) → ∀ p ∈ acc2, p.Nodup)
                    ∧ (acc.Nodup → acc2.Nodup) := by
                  by_cases hc2 : (!next.isEmpty) = true
                  · rw [if_pos hc2] at h2
                    obtain ⟨hT1, hT2, hT3⟩ :=
                      ihT node.children next (path ++ [node.pid]) acc1 0 acc2 h2
                    refine ⟨?_, ?_, fun ha => hT3 (hP1.2.2 ha)⟩
                    · intro p hp2
                      rcases hT1 p hp2 with hin | ⟨rest, hrest⟩
                      · exact hP1.1 p hin
                      · right
                        exact ⟨rest, by simpa [List.append_assoc] using hrest⟩
                    · intro hnd ha
                      exact hT2 (hpath1 hnd) (hP1.2.1 hnd ha)
                  · rw [if_neg hc2] at h2
                    obtain rfl := Option.some.inj h2
                    exact hP1
                cases h3 : (if canMatchAgain curr (cnt + 1) then
                    foldChildren g fuel node.children (curr :: next)
                      (path ++ [node.pid]) acc2 (cnt + 1)
                    else some acc2) with
                | none => rw [h3] at h; simp at h
                | some acc3 =>
                  rw [h3] at h
                  simp only [] at h
                  have hP3 : (∀ p ∈ acc3, p ∈ acc ∨ ∃ rest, p = path ++ node.pid :: rest)
                      ∧ (path.Nodup → (∀ p ∈ acc, p.Nodup) → ∀ p ∈ acc3, p.Nodup)
                      ∧ (acc.Nodup → acc3.Nodup) := by
                    by_cases hc3 : canMatchAgain curr (cnt + 1) = true
                    · rw [if_pos hc3] at h3
                      obtain ⟨hT1, hT2, hT3⟩ :=
                        ihT node.children (curr :: next) (path ++ [node.pid])
                          acc2 (cnt + 1) acc3 h3
                      refine ⟨?_, ?_, fun ha => hT3 (hP2.2.2 ha)⟩
                      · intro p hp3
                        rcases hT1 p hp3 with hin | ⟨rest, hrest⟩
                        · exact hP2.1 p hin
                        · right
                          exact ⟨rest, by simpa [List.append_assoc] using hrest⟩
                      · intro hnd ha
                        exact hT2 (hpath1 hnd) (hP2.2.1 hnd ha)
                    · rw [if_neg hc3] at h3
                      obtain rfl := Option.some.inj h3
                      exact hP2
                  by_cases hlast : next.isEmpty = true
                  · rw [if_pos hlast] at h
                    by_cases hin : (path ++ [node.pid]) ∈ acc3
                    · rw [if_pos hin] at h
                      obtain rfl := Option.some.inj h
                      exact hP3
                    · rw [if_neg hin] at h
                      obtain rfl := Option.some.inj h
                      refine ⟨?_, ?_, ?_⟩
                      · intro p hp4
                        rcases List.mem_append.mp hp4 with hpa | hpa
                        · exact hP3.1 p hpa
                        · obtain rfl := List.mem_singleton.mp hpa
                          exact Or.inr ⟨[], by simp⟩
                      · intro hnd ha p hp4
                        rcases List.mem_append.mp hp4 with hpa | hpa
                        · exact hP3.2.1 hnd ha p hpa
                        · obtain rfl := List.mem_singleton.mp hpa
                          exact hpath1 hnd
                      · intro ha
                        rw [List.nodup_append]
                        refine ⟨hP3.2.2 ha, by simp, ?_⟩
                        intro a ha2 ha3
                        simp only [List.mem_singleton] at ha3
                        subst ha3
                        exact hin ha2
                  · rw [if_neg hlast] at h
                    obtain rfl := Option.some.inj h
                    exact hP3
            · rw [if_neg hmm] at h
              obtain rfl := Option.some.inj h
              exact hP1
    refine ⟨hS, ?_⟩
    intro cids
    induction cids with
    | nil =>
      intro conds path acc cnt res h
      rw [foldChildren] at h
      obtain rfl := Option.some.inj h
      exact ⟨fun p hp => Or.inl hp, fun _ ha p hp => ha p hp, fun ha => ha⟩
    | cons cid rest ihc =>
      intro conds path acc cnt res h
      rw [foldChildren] at h
      cases hl : lookupPF g cid with
      | none => rw [hl] at h; simp at h
      | some cn =>
        rw [hl] at h
        simp only [] at h
        cases h1 : findRecur g (fuel + 1) cn conds path acc cnt with
        | none => rw [h1] at h; simp at h
        | some acc1 =>
          rw [h1] at h
          simp only [] at h
          obtain ⟨hS1, hS2, hS3⟩ := hS cn conds path acc cnt acc1 h1
          obtain ⟨hR1, hR2, hR3⟩ := ihc conds path acc1 cnt res h
          refine ⟨?_, ?_, fun ha => hR3 (hS3 ha)⟩
          · intro p hp
            rcases hR1 p hp with hin | hrest
            · rcases hS1 p hin with hin2 | ⟨r2, hr2⟩
              · exact Or.inl hin2
              · exact Or.inr ⟨cn.pid :: r2, hr2⟩
            · exact Or.inr hrest
          · intro hnd ha
            exact hR2 hnd (hS2 hnd ha)

/-- The seed loop: starting from disjoint seeds (distinct node ids) the
accumulated results stay duplicate-free, every result path is
duplicate-free, and the loop completes whenever each seed's search
completes.  `done` tracks the ids of already-processed seeds; every
accumulated path starts with one of them. -/
theorem runSeeds_ok (g : List PFNode) (conds : List SearchCondition) (fuel : Nat) :
    ∀ (seeds : List PFNode) (acc : List (List Nat)) (done : List Nat),
      (∀ s ∈ seeds, (findRecur g fuel s conds [] [] 0).isSome = true) →
      (done ++ seeds.map PFNode.pid).Nodup →
      (∀ p ∈ acc, ∃ h rest, p = h :: rest ∧ h ∈ done) →
      acc.Nodup →
      (∀ p ∈ acc, p.Nodup) →
      ∃ res, runSeeds g conds fuel seeds acc = some res
        ∧ res.Nodup ∧ (∀ p ∈ res, p.Nodup) := by
  intro seeds
  induction seeds with
  | nil =>
    intro acc done _ _ _ hacnd hapnd
    exact ⟨acc, by rw [runSeeds], hacnd, hapnd⟩
  | cons n rest ih =>
    intro acc done hsome hnd hheads hacnd hapnd
    obtain ⟨r, hr⟩ := Option.isSome_iff_exists.mp (hsome n (by simp))
    obtain ⟨hSh, hSp, hSn⟩ := (find_props g fuel).1 n conds [] [] 0 r hr
    have hrshape : ∀ p ∈ r, ∃ rest2, p = n.pid :: rest2 := by
      intro p hp
      rcases hSh p hp with hin | ⟨rest2, hrest2⟩
      · simp at hin
      · exact ⟨rest2, by simpa using hrest2⟩
    have hrnodup : r.Nodup := hSn (by simp)
    have hrpaths : ∀ p ∈ r, p.Nodup := hSp (by simp) (by simp)
    have hndparts := List.nodup_append.mp
      (by simpa using hnd : (done ++ n.pid :: rest.map PFNode.pid).Nodup)
    have hnpid : n.pid ∉ done := fun hmem => hndparts.2.2 hmem (by simp)
    have hdisj : List.Disjoint acc r := by
      intro p hpacc hpr
      obtain ⟨h0, rest0, rfl, hh0⟩ := hheads p hpacc
      obtain ⟨rest2, heq⟩ := hrshape _ hpr
      obtain ⟨h1eq, -⟩ := List.cons.inj heq
      subst h1eq
      exact hnpid hh0
    obtain ⟨res, hres, hx, hy⟩ := ih (acc ++ r) (done ++ [n.pid])
      (fun s hs => hsome s (by simp [hs]))
      (by
        have : ((done ++ [n.pid]) ++ rest.map PFNode.pid).Nodup := by
          rw [List.append_assoc]
          simpa using hnd
        exact this)
      (by
        intro p hp
        rcases List.mem_append.mp hp with hpa | hpr
        · obtain ⟨h0, rest0, hp0, hh0⟩ := hheads p hpa
          exact ⟨h0, rest0, hp0, by simp [hh0]⟩
        · obtain ⟨rest2, hp2⟩ := hrshape p hpr
          exact ⟨n.pid, rest2, hp2, by simp⟩)
      (by
        rw [List.nodup_append]
        exact ⟨hacnd, hrnodup, hdisj⟩)
      (by
        intro p hp
        rcases List.mem_append.mp hp with hpa | hpr
        · exact hapnd p hpa
        · exact hrpaths p hpr)
    refine ⟨res, ?_, hx, hy⟩
    rw [runSeeds, hr]
    exact hres

/-- C9: on every finite attack graph — cyclic graphs included — whose
children references resolve within the graph and whose node ids are
unique, and for every non-empty condition list, `find_matches` terminates
(fuel `(|nodes| + 1) * (|conditions| + 1)` suffices for the recursion),
no returned path visits a node twice, and no path appears twice in the
returned result list. -/
theorem c9_find_matches (g : List PFNode) (conds : List SearchCondition)
    (hconds : conds ≠ [])
    (hids : (g.map PFNode.pid).Nodup)
    (hclosed : ∀ n ∈ g, ∀ c ∈ n.children, (lookupPF g c).isSome = true) :
    ∃ res, findMatches g conds ((g.length + 1) * (conds.length + 1)) = some res
      ∧ res.Nodup ∧ (∀ p ∈ res, p.Nodup) := by
  cases conds with
  | nil => exact absurd rfl hconds
  | cons c0 rest0 =>
    have hfree : freePF g [] = g.length := by simp [freePF]
    have hmul : (g.length + 1) * ((c0 :: rest0).length + 1)
        = g.length * ((c0 :: rest0).length + 1) + ((c0 :: rest0).length + 1) := by
      ring
    have hsome : ∀ s ∈ g.filter (fun n => c0.matchesFn n),
        (findRecur g ((g.length + 1) * ((c0 :: rest0).length + 1)) s
          (c0 :: rest0) [] [] 0).isSome = true := by
      intro s hs
      refine (find_total g (c0 :: rest0).length hclosed
        ((g.length + 1) * ((c0 :: rest0).length + 1))).1 s (c0 :: rest0) [] [] 0
        (List.mem_of_mem_filter hs) hconds (le_refl _) ?_
      rw [hfree]
      omega
    have hseedmap : (([] : List Nat)
        ++ (g.filter (fun n => c0.matchesFn n)).map PFNode.pid).Nodup := by
      simp only [List.nil_append]
      exact List.Nodup.sublist (List.Sublist.map PFNode.pid (List.filter_sublist g)) hids
    obtain ⟨res, hres, h1, h2⟩ := runSeeds_ok g (c0 :: rest0)
      ((g.length + 1) * ((c0 :: rest0).length + 1))
      (g.filter (fun n => c0.matchesFn n)) [] [] hsome hseedmap
      (by simp) (by simp) (by simp)
    exact ⟨res, hres, h1, h2⟩

/-- Concrete cyclic three-node graph `0 → 1 → 2 → 0` and a three-condition
pattern for the C9 witness. -/
def gPF : List PFNode := [⟨0, [1]⟩, ⟨1, [2]⟩, ⟨2, [0]⟩]

def condsPF : List SearchCondition :=
  [⟨fun n => n.pid == 0, false, 1, some 1⟩,
   ⟨fun _ => true, false, 1, none⟩,
   ⟨fun n => n.pid == 2, false, 1, some 1⟩]

/-- Witness for C9 on the concrete cyclic graph. -/
theorem c9_find_matches_witness :
    (condsPF ≠ [] ∧ (gPF.map PFNode.pid).Nodup
      ∧ ∀ n ∈ gPF, ∀ c ∈ n.children, (lookupPF gPF c).isSome = true)
    ∧ ∃ res, findMatches gPF condsPF ((gPF.length + 1) * (condsPF.length + 1)) = some res
        ∧ res.Nodup ∧ (∀ p ∈ res, p.Nodup) := by
  have h1 : condsPF ≠ [] := by simp [condsPF]
  have h2 : (gPF.map PFNode.pid).Nodup := by decide
  have h3 : ∀ n ∈ gPF, ∀ c ∈ n.children, (lookupPF gPF c).isSome = true := by decide
  exact ⟨⟨h1, h2, h3⟩, c9_find_matches gPF condsPF h1 h2 h3⟩

end MalToolbox
